import Mathlib

/-!
Shallow embedding of the word-cloud layout engine of `src/wordcloud.py`
(`make_wordcloud`), together with proofs about its occupancy grid
(integral-image) bookkeeping, placement loop, sorting and normalization.

Modelling conventions:
* machine integers and numpy values are `ℤ`/`ℕ`/`ℚ`; the greyscale canvas
  is the occupancy mask with white pixels modelled as 1;
* grids are total functions `ℕ → ℕ → ℤ`; the engine only writes inside the
  canvas;
* the process-wide `random.random()` stream is an explicit `ℕ → ℚ` stream
  threaded through the engine by the index of the draw;
* external collaborators (PIL glyph sizing, font loading on the filesystem)
  are parameters of `Config`;
* fallible steps return `Except String`.
-/

deriving instance DecidableEq for Except

namespace WordCloud

/-- Sum of the first `c` entries of row `r` of grid `M`, i.e. of
`M r 0 .. M r (c-1)`. -/
def rowSumLt (M : ℕ → ℕ → ℤ) (r : ℕ) : ℕ → ℤ
  | 0 => 0
  | c + 1 => rowSumLt M r c + M r c

/-- Exclusive 2D prefix sum: sum of `M i j` over `i < r`, `j < c`.  The
integral-table cell `integral[r][c]` of the source corresponds to
`prefixSum M (r+1) (c+1)`. -/
def prefixSum (M : ℕ → ℕ → ℤ) : ℕ → ℕ → ℤ
  | 0, _ => 0
  | r + 1, c => prefixSum M r c + rowSumLt M r c

/-- Sum of `M` over the block of `a` rows and `b` columns whose top-left corner
is `(x, y)`: the value `np.cumsum(np.cumsum(img_array[x:, y:], axis=1), axis=0)`
holds at the bottom-right cell of the block (src/wordcloud.py lines 135-136). -/
def blockFrom (M : ℕ → ℕ → ℤ) (x y a b : ℕ) : ℤ :=
  prefixSum (fun i j => M (x + i) (y + j)) a b

/-- O(1) rectangular sum of the `h × w` region at `(t, l)` by
inclusion-exclusion on the integral table (spec 4.1; out-of-bounds lookups,
`top < 0` or `left < 0`, count as zero). -/
def regionSum (I : ℕ → ℕ → ℤ) (t l h w : ℕ) : ℤ :=
  I (t + h - 1) (l + w - 1)
    - (if 0 < t then I (t - 1) (l + w - 1) else 0)
    - (if 0 < l then I (t + h - 1) (l - 1) else 0)
    + (if 0 < t ∧ 0 < l then I (t - 1) (l - 1) else 0)

/-- First `n` with `s ≤ n < s + fuel` satisfying `p`, scanning upward. -/
def findFirst (p : ℕ → Bool) : ℕ → ℕ → Option ℕ
  | _, 0 => none
  | s, fuel + 1 => if p s then some s else findFirst p (s + 1) fuel

/-- First `r` with `s ≤ r < s + fuel` such that `g r = some c`, scanning
upward; yields `(r, c)`. -/
def findFirstSome (g : ℕ → Option ℕ) : ℕ → ℕ → Option (ℕ × ℕ)
  | _, 0 => none
  | s, fuel + 1 =>
    match g s with
    | some c => some (s, c)
    | none => findFirstSome g (s + 1) fuel

/-- Modelled from the spec: the compiled Cython helper `query_integral_image`
imported at src/wordcloud.py line 14 is not part of `src/`.  Spec 4.2: candidate
origins range over row ∈ [0, H−sizeX], col ∈ [0, W−sizeY]; scan order is
row-major starting at row 0; first-fit: the first candidate whose
`queryRegionSum` is 0 wins; `none` if the box does not fit anywhere. -/
def query_integral_image (I : ℕ → ℕ → ℤ) (H W sx sy : ℕ) : Option (ℕ × ℕ) :=
  if sx ≤ H ∧ sy ≤ W then
    findFirstSome
      (fun r => findFirst (fun c => regionSum I r c sx sy == 0) 0 (W - sy + 1))
      0 (H - sx + 1)
  else none

/-- Text direction of a drawn word: PIL `orientation=None` (horizontal) or
`Image.ROTATE_90` (src/wordcloud.py lines 104-107). -/
inductive Orient where
  | horizontal
  | rotate90
deriving DecidableEq

/-- `draw.textsize` under `ImageFont.TransposedFont`: the base `(width, height)`
box, swapped when the font is rotated by 90 degrees. -/
def transposedSize (sz : ℕ × ℕ) : Orient → ℕ × ℕ
  | Orient.horizontal => sz
  | Orient.rotate90 => (sz.2, sz.1)

/-- One recorded placement: the entries appended to `positions`,
`orientations` and `font_sizes` at lines 128-130, keyed by the word.
`pos` is `(x, y)` = (row, column) of the drawn text's top-left corner. -/
structure Placement where
  word : String
  fontSize : ℕ
  pos : ℕ × ℕ
  orient : Orient
deriving DecidableEq

/-- Static run configuration plus the external collaborators the engine calls.
`rand` is the stream of `random.random()` draws of line 104, one per shrink
attempt, indexed by draw count.  `sizer` is the external glyph sizer
(`draw.textsize` for the untransposed font), giving `(width, height)` in pixels
per word and font size.  `fontOk` tells whether `ImageFont.truetype` can load
the font at a path (line 98).  `sizeFromWeight` abstracts the weighted-mode
size expression `int(100 * np.log(count + 100))` of line 94, kept as a
parameter so the engine stays executable; `sizeFromWeightR` below is that
expression over the reals and its value on normalized weights is pinned down
separately. -/
structure Config where
  width : ℕ
  height : ℕ
  margin : ℕ
  ranksOnly : Bool
  preferHoriz : ℚ
  rand : ℕ → ℚ
  sizer : String → ℕ → ℕ × ℕ
  fontOk : String → Bool
  sizeFromWeight : ℚ → ℕ

/-- The module constant `FONT_PATH` (src/wordcloud.py line 16). -/
def FONT_PATH : String :=
  "/usr/share/fonts/truetype/liberation/LiberationSans-Regular.ttf"

/-- `FONT_PATH.rsplit('/', 1)[-1]` (line 100): the basename — the suffix after
the last slash — of the module default font path, not of the font path
actually requested. -/
def fontfileName : String :=
  String.mk ((FONT_PATH.data.reverse.takeWhile (fun ch => ch != '/')).reverse)

/-- A single-quote character, kept out of string literals. -/
def sq : String := String.singleton (Char.ofNat 39)

/-- The `IOError` message raised at lines 100-102 when the font cannot be
loaded.  It is built from the constant `FONT_PATH`, so it is the same string
whatever font path the caller requested. -/
def fontErrMsg : String :=
  "Font " ++ sq ++ fontfileName ++ sq ++ " not found. Please change " ++ sq ++
    "FONT_PATH" ++ sq ++ " to a valid font file path."

/-- numpy's error for `counts.max()` on a zero-length array (reached from
line 77 when no words are given). -/
def emptyMaxMsg : String :=
  "zero-size array to reduction operation maximum which has no identity"

/-- Stand-in for the non-finite float weights produced when the maximum count
is zero (`0.0 / 0.0` is NaN); see `normalize`. -/
def nanMsg : String := "normalized weights are not finite"

/-- Mutable engine state: the grey canvas (occupancy mask), the integral
table, the carried font size (the global shrink ceiling), the recorded
placements, and the index of the next `random.random()` draw. -/
structure EngineState where
  mask : ℕ → ℕ → ℤ
  integral : ℕ → ℕ → ℤ
  fontSize : ℕ
  placements : List Placement
  k : ℕ

/-- Effect on the occupancy image of `draw.text((y, x), word, fill="white")`
(line 127): the glyph box of `bh` rows and `bw` columns with top-left corner
`(x, y)` is painted, clipped to the `H × W` canvas; white pixels are modelled
as 1 (spec 3: mask cells lie in {0, 1}). -/
def markBox (H W x y bh bw : ℕ) (M : ℕ → ℕ → ℤ) : ℕ → ℕ → ℤ := fun r c =>
  if r < H ∧ c < W ∧ x ≤ r ∧ r < x + bh ∧ y ≤ c ∧ c < y + bw then 1 else M r c

/-- Incremental integral-table update of lines 131-148: every cell at or
below/right of `(x, y)` (inside the canvas) is recomputed as the cumulative sum
of the sub-block of the new mask plus the border sums taken from row `x-1` and
column `y-1` of the old table (with the `x > 0` / `y > 0` cases of lines
139-146); all other cells keep their old value. -/
def updateIntegral (H W : ℕ) (I M' : ℕ → ℕ → ℤ) (x y : ℕ) : ℕ → ℕ → ℤ :=
  fun r c =>
    if x ≤ r ∧ r < H ∧ y ≤ c ∧ c < W then
      blockFrom M' x y (r - x + 1) (c - y + 1)
        + (if 0 < x then I (x - 1) c - (if 0 < y then I (x - 1) (y - 1) else 0)
           else 0)
        + (if 0 < y then I r (y - 1) else 0)
    else I r c

/-- One iteration of the body of the `while True` loop (lines 103-115): draw
an orientation (horizontal when the stream value at `k` is below
`prefer_horiz`, else rotated), measure the transposed text, and query the
integral image for a free region of the box size inflated by the margin. -/
def attempt (cfg : Config) (integral : ℕ → ℕ → ℤ) (word : String) (fs k : ℕ) :
    Orient × Option (ℕ × ℕ) :=
  let o := if cfg.rand k < cfg.preferHoriz then Orient.horizontal
           else Orient.rotate90
  let bs := transposedSize (cfg.sizer word fs) o
  (o, query_integral_image integral cfg.height cfg.width (bs.2 + cfg.margin)
      (bs.1 + cfg.margin))

/-- The `while True` shrink loop (lines 95-119) for one word: each iteration
first loads the font (raising the `IOError` of lines 99-102 if it is missing),
then makes an `attempt`; the loop exits when a position was found or the font
size is 0, and otherwise retries at font size one smaller.  Returns the query
result, the final font size, the orientation of the final attempt, and the next
random-stream index. -/
def findPlacement (cfg : Config) (fontPath : String) (integral : ℕ → ℕ → ℤ)
    (word : String) :
    ℕ → ℕ → Except String (Option (ℕ × ℕ) × ℕ × Orient × ℕ)
  | 0, k =>
    if cfg.fontOk fontPath then
      let a := attempt cfg integral word 0 k
      Except.ok (a.2, 0, a.1, k + 1)
    else Except.error fontErrMsg
  | fs + 1, k =>
    if cfg.fontOk fontPath then
      let a := attempt cfg integral word (fs + 1) k
      if a.2.isSome then Except.ok (a.2, fs + 1, a.1, k + 1)
      else findPlacement cfg fontPath integral word fs (k + 1)
    else Except.error fontErrMsg

/-- Recording of a successful placement (lines 125-148): offset the query
result by `margin // 2`, draw the text (mark the glyph box on the mask), append
the placement, and update the integral table incrementally. -/
def placeAt (cfg : Config) (s : EngineState) (word : String) (fs : ℕ)
    (o : Orient) (rx ry k' : ℕ) : EngineState :=
  let bs := transposedSize (cfg.sizer word fs) o
  let x := rx + cfg.margin / 2
  let y := ry + cfg.margin / 2
  let mask' := markBox cfg.height cfg.width x y bs.2 bs.1 s.mask
  { mask := mask'
    integral := updateIntegral cfg.height cfg.width s.integral mask' x y
    fontSize := fs
    placements := s.placements ++ [⟨word, fs, (x, y), o⟩]
    k := k' }

/-- Processing of one `(word, count)` pair of the main loop (lines 91-148):
in weighted mode lower the carried font size to at most the size from the
weight (line 94), run the shrink loop, and either record the placement or —
when the loop ended at font size 0 — report `none`, upon which the whole layout
stops (lines 121-123). -/
def processWord (cfg : Config) (fontPath : String) (s : EngineState)
    (wc : String × ℚ) : Except String (Option EngineState) :=
  match findPlacement cfg fontPath s.integral wc.1
      (if cfg.ranksOnly then s.fontSize
       else min s.fontSize (cfg.sizeFromWeight wc.2)) s.k with
  | Except.error e => Except.error e
  | Except.ok (res, fs, o, k') =>
    if fs = 0 then Except.ok none
    else
      match res with
      | some (rx, ry) => Except.ok (some (placeAt cfg s wc.1 fs o rx ry k'))
      | none => Except.ok none

/-- The `for word, count in zip(words, counts)` loop: words are processed in
order; a word that exhausts the shrink loop stops the run, dropping itself and
every remaining word (`break` at line 123), returning the state built so far. -/
def layoutWords (cfg : Config) (fontPath : String) :
    EngineState → List (String × ℚ) → Except String EngineState
  | s, [] => Except.ok s
  | s, wc :: rest =>
    match processWord cfg fontPath s wc with
    | Except.error e => Except.error e
    | Except.ok none => Except.ok s
    | Except.ok (some s') => layoutWords cfg fontPath s' rest

/-- Comparison key realizing `np.argsort(counts)` (line 79): ascending by
count, ties by original index (numpy's argsort of a small array is a stable
insertion sort). -/
def sortKey (counts : List ℚ) (i j : ℕ) : Prop :=
  counts.getD i 0 < counts.getD j 0 ∨
    (counts.getD i 0 = counts.getD j 0 ∧ i ≤ j)

instance (counts : List ℚ) : DecidableRel (sortKey counts) := fun i j => by
  unfold sortKey; infer_instance

instance (counts : List ℚ) : IsTotal ℕ (sortKey counts) where
  total a b := by
    unfold sortKey
    rcases lt_trichotomy (counts.getD a 0) (counts.getD b 0) with h | h | h
    · exact Or.inl (Or.inl h)
    · rcases Nat.le_total a b with hab | hab
      · exact Or.inl (Or.inr ⟨h, hab⟩)
      · exact Or.inr (Or.inr ⟨h.symm, hab⟩)
    · exact Or.inr (Or.inl h)

instance (counts : List ℚ) : IsTrans ℕ (sortKey counts) where
  trans a b c hab hbc := by
    unfold sortKey at hab hbc ⊢
    rcases hab with h1 | ⟨h1, h1'⟩ <;> rcases hbc with h2 | ⟨h2, h2'⟩
    · exact Or.inl (h1.trans h2)
    · exact Or.inl (h2 ▸ h1)
    · exact Or.inl (h1 ▸ h2)
    · exact Or.inr ⟨h1.trans h2, h1'.trans h2'⟩

/-- `np.argsort(counts)[::-1]` (line 79): the order in which word indices are
attempted, heaviest first. -/
def attemptOrder (counts : List ℚ) : List ℕ :=
  (List.insertionSort (sortKey counts) (List.range counts.length)).reverse

/-- `counts.max()` over a nonempty list (numpy raises on an empty one; that is
handled at the call site). -/
def maxQ : List ℚ → ℚ
  | [] => 0
  | [c] => c
  | c :: c' :: r => max c (maxQ (c' :: r))

/-- Weight normalization `counts = counts / float(counts.max())` (line 77).
When the maximum is 0, every division is by zero and float semantics produce
non-finite values (`0.0 / 0.0` is NaN), so no rational result exists; that
case is modelled as `none`. -/
def normalize (counts : List ℚ) : Option (List ℚ) :=
  if maxQ counts = 0 then none
  else some (counts.map (fun c => c / maxQ counts))

/-- Fresh canvas state (lines 83-89): all-zero mask and integral table, the
`font_size = 1000` start value, no placements, randomness unused. -/
def initState : EngineState :=
  { mask := fun _ _ => 0
    integral := fun _ _ => 0
    fontSize := 1000
    placements := []
    k := 0 }

/-- `make_wordcloud(words, counts, fname, width, height, font_path, margin,
ranks_only, prefer_horiz)` up to the grey-image layout phase — the final
color redraw (lines 150-163) only re-renders the recorded placements.  Empty
input reaches `counts.max()` and raises (line 69 only prints); a missing font
raises the `IOError` built from `FONT_PATH`; otherwise the result is the list
of recorded placements (word, font size, position, orientation, in attempt
order) and the number of words dropped by canvas exhaustion. -/
def make_wordcloud (cfg : Config) (words : List String) (counts : List ℚ)
    (fontPathArg : Option String) : Except String (List Placement × ℕ) :=
  if counts.length = 0 then Except.error emptyMaxMsg
  else
    let fontPath := fontPathArg.getD FONT_PATH
    match normalize counts with
    | none => Except.error nanMsg
    | some ncounts =>
      let inds := attemptOrder ncounts
      let ws := inds.map fun i => words.getD i ""
      let cs := inds.map fun i => ncounts.getD i 0
      match layoutWords cfg fontPath initState (ws.zip cs) with
      | Except.error e => Except.error e
      | Except.ok s => Except.ok (s.placements, ws.length - s.placements.length)

/-- The glyph box a placement covers: `bs.2` rows and `bs.1` columns starting
at the recorded top-left `pos` (the region painted white at line 127). -/
def inBox (cfg : Config) (p : Placement) (r c : ℕ) : Prop :=
  p.pos.1 ≤ r ∧ r < p.pos.1 + (transposedSize (cfg.sizer p.word p.fontSize) p.orient).2 ∧
  p.pos.2 ≤ c ∧ c < p.pos.2 + (transposedSize (cfg.sizer p.word p.fontSize) p.orient).1

instance (cfg : Config) (p : Placement) (r c : ℕ) : Decidable (inBox cfg p r c) := by
  unfold inBox; infer_instance

/-- The margin-inflated rectangle of a placement as claim C1 reads it: the
glyph box grown by the margin — the region the engine queried for freeness —
located around the recorded position. -/
def inInflated (cfg : Config) (p : Placement) (r c : ℕ) : Prop :=
  p.pos.1 - cfg.margin / 2 ≤ r ∧
  r < p.pos.1 - cfg.margin / 2 + (transposedSize (cfg.sizer p.word p.fontSize) p.orient).2 + cfg.margin ∧
  p.pos.2 - cfg.margin / 2 ≤ c ∧
  c < p.pos.2 - cfg.margin / 2 + (transposedSize (cfg.sizer p.word p.fontSize) p.orient).1 + cfg.margin

instance (cfg : Config) (p : Placement) (r c : ℕ) : Decidable (inInflated cfg p r c) := by
  unfold inInflated; infer_instance

/-- The integral table is the exact 2D prefix sum of the occupancy mask over
the whole canvas (spec 3). -/
def InvI (cfg : Config) (s : EngineState) : Prop :=
  ∀ r < cfg.height, ∀ c < cfg.width,
    s.integral r c = prefixSum s.mask (r + 1) (c + 1)

instance (cfg : Config) (s : EngineState) : Decidable (InvI cfg s) := by
  unfold InvI; infer_instance

/-- The glyph box of a placement lies inside the canvas. -/
def boxInBounds (cfg : Config) (p : Placement) : Prop :=
  p.pos.1 + (transposedSize (cfg.sizer p.word p.fontSize) p.orient).2 ≤ cfg.height ∧
  p.pos.2 + (transposedSize (cfg.sizer p.word p.fontSize) p.orient).1 ≤ cfg.width

/-- The glyph boxes of two placements share no cell. -/
def disjointBoxes (cfg : Config) (p q : Placement) : Prop :=
  ∀ r c, ¬(inBox cfg p r c ∧ inBox cfg q r c)

/-- Run invariant of the layout loop: the mask is 0/1-valued, every recorded
placement's glyph box is painted on the mask and lies inside the canvas, the
integral table is the exact prefix sum of the mask, and the recorded glyph
boxes are pairwise disjoint. -/
def GoodState (cfg : Config) (s : EngineState) : Prop :=
  (∀ r c, s.mask r c = 0 ∨ s.mask r c = 1) ∧
  (∀ p ∈ s.placements, ∀ r c, inBox cfg p r c → s.mask r c = 1) ∧
  InvI cfg s ∧
  (∀ p ∈ s.placements, boxInBounds cfg p) ∧
  s.placements.Pairwise (disjointBoxes cfg)

/-- The weighted-mode size expression of line 94 over the reals:
`int(100 * np.log(count + 100))`.  On every input that reaches it the argument
of `int` is positive, where Python's `int` truncation coincides with the
floor. -/
noncomputable def sizeFromWeightR (w : ℝ) : ℤ := ⌊100 * Real.log (w + 100)⌋

/-- Test fixture: 3×5 canvas, margin 2, rank-only sizing, every draw
horizontal, constant 1×1 glyph boxes. -/
def cfgA : Config where
  width := 5
  height := 3
  margin := 2
  ranksOnly := true
  preferHoriz := 1
  rand := fun _ => 0
  sizer := fun _ _ => (1, 1)
  fontOk := fun _ => true
  sizeFromWeight := fun _ => 0

/-- Test fixture: 4×4 canvas whose glyph boxes (10×10) can never fit. -/
def cfgB : Config where
  width := 4
  height := 4
  margin := 0
  ranksOnly := true
  preferHoriz := 1
  rand := fun _ => 0
  sizer := fun _ _ => (10, 10)
  fontOk := fun _ => true
  sizeFromWeight := fun _ => 0

/-- Engine state with a small carried font size, for exercising the shrink
loop quickly. -/
def sSmall : EngineState :=
  { mask := fun _ _ => 0
    integral := fun _ _ => 0
    fontSize := 2
    placements := []
    k := 0 }

/-- Test fixture for the orientation re-roll: the first draw (index 0) is 1
(not below `prefer_horiz`, so rotated), later draws are 0 (horizontal);
glyph boxes are 100×100 at font sizes ≥ 460 and 1×1 below, so the first
attempt fails and the second succeeds. -/
def cfgC : Config where
  width := 10
  height := 10
  margin := 1
  ranksOnly := false
  preferHoriz := 1
  rand := fun k => if k = 0 then 1 else 0
  sizer := fun _ fs => if 460 ≤ fs then (100, 100) else (1, 1)
  fontOk := fun _ => true
  sizeFromWeight := fun _ => 460

/-- The state after the single placement of the `cfgA` one-word run: the word
is placed immediately at font size 1000 at the query hit `(0, 0)`, offset by
`margin // 2 = 1`. -/
def s1W : EngineState := placeAt cfgA initState "w" 1000 Orient.horizontal 0 0 1

/-- Test fixture whose font cannot be loaded at any path. -/
def cfgD : Config where
  width := 5
  height := 5
  margin := 1
  ranksOnly := true
  preferHoriz := 1
  rand := fun _ => 0
  sizer := fun _ _ => (1, 1)
  fontOk := fun _ => false
  sizeFromWeight := fun _ => 0

/-- Row sums only depend on the entries of the row that are actually summed. -/
theorem rowSumLt_congr {M N : ℕ → ℕ → ℤ} {r r' : ℕ} :
    ∀ {c : ℕ}, (∀ j < c, M r j = N r' j) → rowSumLt M r c = rowSumLt N r' c
  | 0, _ => rfl
  | c + 1, h => by
    simp only [rowSumLt]
    rw [rowSumLt_congr (fun j hj => h j (Nat.lt_succ_of_lt hj)),
      h c (Nat.lt_succ_self c)]

/-- Prefix sums only depend on the entries actually summed. -/
theorem prefixSum_congr {M N : ℕ → ℕ → ℤ} :
    ∀ {a : ℕ} {b : ℕ}, (∀ i < a, ∀ j < b, M i j = N i j) →
      prefixSum M a b = prefixSum N a b
  | 0, _, _ => rfl
  | a + 1, b, h => by
    simp only [prefixSum]
    rw [prefixSum_congr (fun i hi j hj => h i (Nat.lt_succ_of_lt hi) j hj),
      rowSumLt_congr (fun j hj => h a (Nat.lt_succ_self a) j hj)]

/-- Splitting a row sum at column `y`. -/
theorem rowSumLt_shift (M : ℕ → ℕ → ℤ) (r y : ℕ) :
    ∀ b : ℕ, rowSumLt M r (y + b) =
      rowSumLt M r y + rowSumLt (fun i j => M i (y + j)) r b
  | 0 => by simp [rowSumLt]
  | b + 1 => by
    show rowSumLt M r ((y + b) + 1) = _
    simp only [rowSumLt]
    rw [rowSumLt_shift M r y b]; ring

/-- A prefix sum splits into the prefix sums left of column `y` and above row
`x` plus the block sum from `(x, y)` — the identity behind both
`queryRegionSum` and the incremental update of lines 139-146. -/
theorem prefixSum_shift (M : ℕ → ℕ → ℤ) (x y : ℕ) :
    ∀ (a : ℕ) (b : ℕ), prefixSum M (x + a) (y + b) =
      prefixSum M x (y + b) + prefixSum M (x + a) y - prefixSum M x y +
        blockFrom M x y a b
  | 0, b => by simp [blockFrom, prefixSum]
  | a + 1, b => by
    have hsh : rowSumLt (fun i j => M (x + i) (y + j)) a b =
        rowSumLt (fun i j => M i (y + j)) (x + a) b :=
      rowSumLt_congr (fun j _ => rfl)
    show prefixSum M ((x + a) + 1) (y + b) = _ + blockFrom M x y (a + 1) b
    have hblk : blockFrom M x y (a + 1) b =
        blockFrom M x y a b + rowSumLt (fun i j => M (x + i) (y + j)) a b := rfl
    simp only [prefixSum]
    rw [prefixSum_shift M x y a b, hblk, hsh, rowSumLt_shift M (x + a) y b]
    show _ = prefixSum M x (y + b) +
      (prefixSum M (x + a) y + rowSumLt M (x + a) y) - prefixSum M x y + _
    ring

/-- Row sums of a nonnegative grid are nonnegative. -/
theorem rowSumLt_nonneg {M : ℕ → ℕ → ℤ} (h : ∀ i j, 0 ≤ M i j) (r : ℕ) :
    ∀ c : ℕ, 0 ≤ rowSumLt M r c
  | 0 => le_refl 0
  | c + 1 => add_nonneg (rowSumLt_nonneg h r c) (h r c)

/-- Prefix sums of a nonnegative grid are nonnegative. -/
theorem prefixSum_nonneg {M : ℕ → ℕ → ℤ} (h : ∀ i j, 0 ≤ M i j) :
    ∀ a b : ℕ, 0 ≤ prefixSum M a b
  | 0, _ => le_refl 0
  | a + 1, b => add_nonneg (prefixSum_nonneg h a b) (rowSumLt_nonneg h a b)

/-- In a nonnegative grid, a single entry is at most the row sum covering it. -/
theorem cell_le_rowSumLt {M : ℕ → ℕ → ℤ} (h : ∀ i j, 0 ≤ M i j) (r : ℕ) :
    ∀ {c j : ℕ}, j < c → M r j ≤ rowSumLt M r c
  | c + 1, j, hj => by
    rcases Nat.lt_succ_iff_lt_or_eq.mp hj with hj' | rfl
    · exact le_trans (cell_le_rowSumLt h r hj')
        (le_add_of_nonneg_right (h r c))
    · exact le_add_of_nonneg_left (rowSumLt_nonneg h r j)

/-- In a nonnegative grid, a single entry is at most the prefix sum covering
it. -/
theorem cell_le_prefixSum {M : ℕ → ℕ → ℤ} (h : ∀ i j, 0 ≤ M i j) :
    ∀ {a b i j : ℕ}, i < a → j < b → M i j ≤ prefixSum M a b
  | a + 1, b, i, j, hi, hj => by
    rcases Nat.lt_succ_iff_lt_or_eq.mp hi with hi' | rfl
    · exact le_trans (cell_le_prefixSum h hi' hj)
        (le_add_of_nonneg_right (rowSumLt_nonneg h a b))
    · exact le_add_of_nonneg_left (prefixSum_nonneg h i b) |>.trans'
        (cell_le_rowSumLt h i hj)

/-- Prefix sums over zero columns vanish. -/
theorem prefixSum_zero_cols (M : ℕ → ℕ → ℤ) : ∀ a : ℕ, prefixSum M a 0 = 0
  | 0 => rfl
  | a + 1 => by simp [prefixSum, rowSumLt, prefixSum_zero_cols M a]

/-- The all-zero grid has zero prefix sums. -/
theorem prefixSum_zeroGrid : ∀ a b : ℕ, prefixSum (fun _ _ => (0 : ℤ)) a b = 0
  | 0, _ => rfl
  | a + 1, b => by
    have hrow : ∀ c : ℕ, rowSumLt (fun _ _ => (0 : ℤ)) a c = 0 := by
      intro c
      induction c with
      | zero => rfl
      | succ c ih => simp [rowSumLt, ih]
    simp [prefixSum, prefixSum_zeroGrid a b, hrow]

/-- Exactness of the incremental integral-image update: if the old table is
the exact prefix sum of the old mask and the mask changed only at or
below/right of `(x, y)`, then the updated table is the exact prefix sum of
the new mask. -/
theorem updateIntegral_exact {H W : ℕ} {I M M' : ℕ → ℕ → ℤ} {x y : ℕ}
    (hInv : ∀ r < H, ∀ c < W, I r c = prefixSum M (r + 1) (c + 1))
    (hloc : ∀ r c, r < x ∨ c < y → M' r c = M r c) :
    ∀ r < H, ∀ c < W, updateIntegral H W I M' x y r c =
      prefixSum M' (r + 1) (c + 1) := by
  intro r hr c hc
  unfold updateIntegral
  by_cases hxr : x ≤ r
  · by_cases hyc : y ≤ c
    · rw [if_pos ⟨hxr, hr, hyc, hc⟩]
      have hPxC : prefixSum M x (c + 1) = prefixSum M' x (c + 1) :=
        prefixSum_congr (fun i hi _ _ => (hloc i _ (Or.inl hi)).symm)
      have hPRy : prefixSum M (r + 1) y = prefixSum M' (r + 1) y :=
        prefixSum_congr (fun i _ j hj => (hloc i j (Or.inr hj)).symm)
      have hPxy : prefixSum M x y = prefixSum M' x y :=
        prefixSum_congr (fun i hi _ _ => (hloc i _ (Or.inl hi)).symm)
      have e1 : (if 0 < x then
            I (x - 1) c - (if 0 < y then I (x - 1) (y - 1) else 0) else 0) =
          prefixSum M x (c + 1) - prefixSum M x y := by
        by_cases h0x : 0 < x
        · rw [if_pos h0x, hInv (x - 1) (by omega) c hc]
          have ex : x - 1 + 1 = x := by omega
          rw [ex]
          by_cases h0y : 0 < y
          · rw [if_pos h0y, hInv (x - 1) (by omega) (y - 1) (by omega), ex]
            have ey : y - 1 + 1 = y := by omega
            rw [ey]
          · rw [if_neg h0y]
            have : y = 0 := by omega
            subst this
            rw [prefixSum_zero_cols]
        · rw [if_neg h0x]
          have : x = 0 := by omega
          subst this
          show (0 : ℤ) = prefixSum M 0 (c + 1) - prefixSum M 0 y
          show (0 : ℤ) = 0 - 0
          ring
      have e2 : (if 0 < y then I r (y - 1) else 0) = prefixSum M (r + 1) y := by
        by_cases h0y : 0 < y
        · rw [if_pos h0y, hInv r hr (y - 1) (by omega)]
          have ey : y - 1 + 1 = y := by omega
          rw [ey]
        · rw [if_neg h0y]
          have : y = 0 := by omega
          subst this
          rw [prefixSum_zero_cols]
      rw [e1, e2, hPxC, hPRy, hPxy]
      have key := prefixSum_shift M' x y (r - x + 1) (c - y + 1)
      have ha : x + (r - x + 1) = r + 1 := by omega
      have hb : y + (c - y + 1) = c + 1 := by omega
      rw [ha, hb] at key
      linarith [key]
    · rw [if_neg (by tauto), hInv r hr c hc]
      exact (prefixSum_congr (fun i _ j hj =>
        hloc i j (Or.inr (by omega)))).symm
  · rw [if_neg (by tauto), hInv r hr c hc]
    exact (prefixSum_congr (fun i hi _ _ =>
      hloc i _ (Or.inl (by omega)))).symm

/-- Under the prefix-sum invariant, the inclusion-exclusion `queryRegionSum`
computes exactly the mask sum over the queried region. -/
theorem regionSum_eq_blockFrom {H W : ℕ} {I M : ℕ → ℕ → ℤ}
    (hInv : ∀ r < H, ∀ c < W, I r c = prefixSum M (r + 1) (c + 1))
    {t l h w : ℕ} (hh : 0 < h) (hw : 0 < w) (hH : t + h ≤ H) (hW : l + w ≤ W) :
    regionSum I t l h w = blockFrom M t l h w := by
  unfold regionSum
  have hA : I (t + h - 1) (l + w - 1) = prefixSum M (t + h) (l + w) := by
    rw [hInv (t + h - 1) (by omega) (l + w - 1) (by omega)]
    congr 1 <;> omega
  have hB : (if 0 < t then I (t - 1) (l + w - 1) else 0) =
      prefixSum M t (l + w) := by
    by_cases h0 : 0 < t
    · rw [if_pos h0, hInv (t - 1) (by omega) (l + w - 1) (by omega)]
      congr 1 <;> omega
    · rw [if_neg h0]
      have : t = 0 := by omega
      subst this
      rfl
  have hC : (if 0 < l then I (t + h - 1) (l - 1) else 0) =
      prefixSum M (t + h) l := by
    by_cases h0 : 0 < l
    · rw [if_pos h0, hInv (t + h - 1) (by omega) (l - 1) (by omega)]
      congr 1 <;> omega
    · rw [if_neg h0]
      have : l = 0 := by omega
      subst this
      rw [prefixSum_zero_cols]
  have hD : (if 0 < t ∧ 0 < l then I (t - 1) (l - 1) else 0) =
      prefixSum M t l := by
    by_cases h0 : 0 < t ∧ 0 < l
    · rw [if_pos h0, hInv (t - 1) (by omega) (l - 1) (by omega)]
      congr 1 <;> omega
    · rw [if_neg h0]
      rcases not_and_or.mp h0 with h1 | h1
      · have : t = 0 := by omega
        subst this
        rfl
      · have : l = 0 := by omega
        subst this
        rw [prefixSum_zero_cols]
  rw [hA, hB, hC, hD]
  have key := prefixSum_shift M t l h w
  linarith [key]

/-- A zero block sum over a nonnegative grid forces every covered cell to be
zero. -/
theorem blockFrom_zero_cell {M : ℕ → ℕ → ℤ} (h01 : ∀ i j, 0 ≤ M i j)
    {t l h w : ℕ} (hz : blockFrom M t l h w = 0) {i j : ℕ}
    (hi1 : t ≤ i) (hi2 : i < t + h) (hj1 : l ≤ j) (hj2 : j < l + w) :
    M i j = 0 := by
  have hcell : M (t + (i - t)) (l + (j - l)) ≤
      prefixSum (fun a b => M (t + a) (l + b)) h w :=
    cell_le_prefixSum (fun _ _ => h01 _ _)
      (show i - t < h by omega) (show j - l < w by omega)
  have he : t + (i - t) = i := by omega
  have he' : l + (j - l) = j := by omega
  rw [he, he'] at hcell
  have hzero : prefixSum (fun a b => M (t + a) (l + b)) h w = 0 := hz
  have h0 : 0 ≤ M i j := h01 i j
  omega

/-- Soundness of `findFirst`: a hit satisfies the predicate and lies in the
scanned range. -/
theorem findFirst_eq_some {p : ℕ → Bool} :
    ∀ {s fuel n : ℕ}, findFirst p s fuel = some n →
      p n = true ∧ s ≤ n ∧ n < s + fuel
  | _, 0, _, h => by simp [findFirst] at h
  | s, fuel + 1, n, h => by
    unfold findFirst at h
    by_cases hp : p s
    · rw [if_pos hp] at h
      cases h
      exact ⟨hp, le_refl _, by omega⟩
    · rw [if_neg hp] at h
      obtain ⟨h1, h2, h3⟩ := findFirst_eq_some h
      exact ⟨h1, by omega, by omega⟩

/-- Soundness of `findFirstSome`: a hit comes from the row function and lies
in the scanned range. -/
theorem findFirstSome_eq_some {g : ℕ → Option ℕ} :
    ∀ {s fuel r c : ℕ}, findFirstSome g s fuel = some (r, c) →
      g r = some c ∧ s ≤ r ∧ r < s + fuel
  | _, 0, _, _, h => by simp [findFirstSome] at h
  | s, fuel + 1, r, c, h => by
    unfold findFirstSome at h
    cases hg : g s with
    | some a =>
      rw [hg] at h
      obtain ⟨rfl, rfl⟩ := Prod.mk.injEq .. ▸ Option.some.inj h
      exact ⟨hg, le_refl _, by omega⟩
    | none =>
      rw [hg] at h
      obtain ⟨h1, h2, h3⟩ := findFirstSome_eq_some h
      exact ⟨h1, by omega, by omega⟩

/-- Soundness of the (spec-modelled) free-region query: a returned origin has
zero region sum and the queried box lies inside the canvas. -/
theorem query_sound {I : ℕ → ℕ → ℤ} {H W sx sy r c : ℕ}
    (h : query_integral_image I H W sx sy = some (r, c)) :
    regionSum I r c sx sy = 0 ∧ r + sx ≤ H ∧ c + sy ≤ W := by
  unfold query_integral_image at h
  by_cases hb : sx ≤ H ∧ sy ≤ W
  · rw [if_pos hb] at h
    obtain ⟨hg, _, hr⟩ := findFirstSome_eq_some h
    obtain ⟨hp, _, hc⟩ := findFirst_eq_some hg
    exact ⟨by simpa using hp, by omega, by omega⟩
  · rw [if_neg hb] at h
    cases h

/-- When the font cannot be loaded, the shrink loop raises the `IOError` built
from `FONT_PATH` on its very first iteration, whatever the font size. -/
theorem findPlacement_fontMissing {cfg : Config} {fp : String}
    {I : ℕ → ℕ → ℤ} {w : String} (h : cfg.fontOk fp = false) :
    ∀ fs k, findPlacement cfg fp I w fs k = Except.error fontErrMsg := by
  intro fs k
  cases fs <;> simp [findPlacement, h]

/-- Characterization of a completed shrink loop: the final font size is at
most the starting one, one random draw is consumed per attempt, and the
returned orientation and query result are those of the final attempt — the
attempt at the final font size, using the random draw of index
`k + (fs - fs')` (the number of failed attempts after `k`). -/
theorem findPlacement_spec {cfg : Config} {fp : String} {I : ℕ → ℕ → ℤ}
    {w : String} :
    ∀ {fs k : ℕ} {res : Option (ℕ × ℕ)} {fs' : ℕ} {o : Orient} {k' : ℕ},
      findPlacement cfg fp I w fs k = Except.ok (res, fs', o, k') →
      fs' ≤ fs ∧ k' = k + (fs - fs') + 1 ∧
        (o, res) = attempt cfg I w fs' (k + (fs - fs'))
  | 0, k, res, fs', o, k', h => by
    unfold findPlacement at h
    by_cases hf : cfg.fontOk fp
    · rw [if_pos hf] at h
      injection h with h
      rw [Prod.mk.injEq, Prod.mk.injEq, Prod.mk.injEq] at h
      obtain ⟨h1, h2, h3, h4⟩ := h
      subst h1
      subst h2
      subst h3
      subst h4
      exact ⟨le_refl 0, rfl, rfl⟩
    · simp [hf] at h
  | fs + 1, k, res, fs', o, k', h => by
    unfold findPlacement at h
    by_cases hf : cfg.fontOk fp
    · rw [if_pos hf] at h
      by_cases hs : (attempt cfg I w (fs + 1) k).2.isSome
      · rw [if_pos hs] at h
        injection h with h
        rw [Prod.mk.injEq, Prod.mk.injEq, Prod.mk.injEq] at h
        obtain ⟨h1, h2, h3, h4⟩ := h
        subst h1
        subst h2
        subst h3
        subst h4
        have e0 : fs + 1 - (fs + 1) = 0 := by omega
        rw [e0, Nat.add_zero]
        exact ⟨le_refl _, rfl, rfl⟩
      · rw [if_neg hs] at h
        obtain ⟨h1, h2, h3⟩ := findPlacement_spec h
        have e1 : fs + 1 - fs' = fs - fs' + 1 := by omega
        have e2 : k + (fs + 1 - fs') = k + 1 + (fs - fs') := by omega
        exact ⟨by omega, by omega, by rw [e2]; exact h3⟩
    · simp [hf] at h

/-- Painting a glyph box leaves every cell above or left of its corner
unchanged. -/
theorem markBox_eq_of_lt {H W x y bh bw : ℕ} {M : ℕ → ℕ → ℤ} {r c : ℕ}
    (h : r < x ∨ c < y) : markBox H W x y bh bw M r c = M r c := by
  unfold markBox
  rw [if_neg]
  rintro ⟨_, _, h1, _, h2, _⟩
  omega

/-- A painted cell is either white or keeps its old value. -/
theorem markBox_cases {H W x y bh bw : ℕ} {M : ℕ → ℕ → ℤ} (r c : ℕ) :
    markBox H W x y bh bw M r c = 1 ∨ markBox H W x y bh bw M r c = M r c := by
  unfold markBox
  split
  · exact Or.inl rfl
  · exact Or.inr rfl

/-- Every in-canvas cell of the painted glyph box is white afterwards. -/
theorem markBox_one {H W x y bh bw : ℕ} {M : ℕ → ℕ → ℤ} {r c : ℕ}
    (hr : r < H) (hc : c < W) (h1 : x ≤ r) (h2 : r < x + bh) (h3 : y ≤ c)
    (h4 : c < y + bw) : markBox H W x y bh bw M r c = 1 := by
  unfold markBox
  rw [if_pos ⟨hr, hc, h1, h2, h3, h4⟩]

/-- Shape of a successful word placement: it comes from a completed shrink
loop with positive final font size and a successful query, and the new state
is `placeAt` of those data. -/
theorem processWord_ok_some {cfg : Config} {fp : String} {s s' : EngineState}
    {wc : String × ℚ} (h : processWord cfg fp s wc = Except.ok (some s')) :
    ∃ fs o rx ry k',
      findPlacement cfg fp s.integral wc.1
          (if cfg.ranksOnly then s.fontSize
           else min s.fontSize (cfg.sizeFromWeight wc.2)) s.k =
        Except.ok (some (rx, ry), fs, o, k') ∧
      fs ≠ 0 ∧ s' = placeAt cfg s wc.1 fs o rx ry k' := by
  unfold processWord at h
  cases hfp : findPlacement cfg fp s.integral wc.1
      (if cfg.ranksOnly then s.fontSize
       else min s.fontSize (cfg.sizeFromWeight wc.2)) s.k with
  | error e => rw [hfp] at h; cases h
  | ok t =>
    obtain ⟨res, fs, o, k'⟩ := t
    rw [hfp] at h
    dsimp only at h
    by_cases hfs : fs = 0
    · rw [if_pos hfs] at h
      cases h
    · rw [if_neg hfs] at h
      cases res with
      | none => cases h
      | some rc =>
        obtain ⟨rx, ry⟩ := rc
        injection h with h
        injection h with h
        exact ⟨fs, o, rx, ry, k', rfl, hfs, h.symm⟩

/-- Recording a placement whose inflated box the query reported free preserves
the run invariant: the mask stays 0/1, all recorded boxes (the new one
included) are painted, in bounds, pairwise disjoint, and the incrementally
updated integral table stays the exact prefix sum of the mask. -/
theorem placeAt_good {cfg : Config} {s : EngineState} {w : String} {fs : ℕ}
    {o : Orient} {rx ry k' : ℕ} (hg : GoodState cfg s)
    (hq : query_integral_image s.integral cfg.height cfg.width
        ((transposedSize (cfg.sizer w fs) o).2 + cfg.margin)
        ((transposedSize (cfg.sizer w fs) o).1 + cfg.margin) = some (rx, ry)) :
    GoodState cfg (placeAt cfg s w fs o rx ry k') := by
  obtain ⟨hm01, hmarked, hInv, hbounds, hpw⟩ := hg
  obtain ⟨hz, hxH, hyW⟩ := query_sound hq
  have hInv' : ∀ r < cfg.height, ∀ c < cfg.width,
      s.integral r c = prefixSum s.mask (r + 1) (c + 1) := hInv
  have hnn : ∀ i j, 0 ≤ s.mask i j := by
    intro i j
    rcases hm01 i j with h | h <;> omega
  have hm2 : cfg.margin / 2 ≤ cfg.margin := Nat.div_le_self _ _
  simp only [placeAt, GoodState, InvI, boxInBounds]
  refine ⟨?_, ?_, ?_, ?_, ?_⟩
  · intro r c
    rcases @markBox_cases cfg.height cfg.width (rx + cfg.margin / 2)
        (ry + cfg.margin / 2) (transposedSize (cfg.sizer w fs) o).2
        (transposedSize (cfg.sizer w fs) o).1 s.mask r c with h | h
    · rw [h]; exact Or.inr rfl
    · rw [h]; exact hm01 r c
  · intro p hp r c hbox
    rcases List.mem_append.mp hp with hpold | hpnew
    · have h1 := hmarked p hpold r c hbox
      rcases @markBox_cases cfg.height cfg.width (rx + cfg.margin / 2)
          (ry + cfg.margin / 2) (transposedSize (cfg.sizer w fs) o).2
          (transposedSize (cfg.sizer w fs) o).1 s.mask r c with h | h
      · rw [h]
      · rw [h]; exact h1
    · rw [List.mem_singleton] at hpnew
      subst hpnew
      obtain ⟨hb1, hb2, hb3, hb4⟩ := hbox
      exact markBox_one (by simp only at hb2 ⊢; omega)
        (by simp only at hb4 ⊢; omega) hb1 hb2 hb3 hb4
  · intro r hr c hc
    exact updateIntegral_exact hInv'
      (fun r c hrc => markBox_eq_of_lt hrc) r hr c hc
  · intro p hp
    rcases List.mem_append.mp hp with hpold | hpnew
    · exact hbounds p hpold
    · rw [List.mem_singleton] at hpnew
      subst hpnew
      constructor
      · simp only
        omega
      · simp only
        omega
  · rw [List.pairwise_append]
    refine ⟨hpw, List.pairwise_singleton _ _, ?_⟩
    intro a ha b hb
    rw [List.mem_singleton] at hb
    subst hb
    intro r c hcontra
    obtain ⟨hina, hinp⟩ := hcontra
    have h1 : s.mask r c = 1 := hmarked a ha r c hina
    obtain ⟨hp1, hp2, hp3, hp4⟩ := hinp
    simp only at hp1 hp2 hp3 hp4
    have hbh : 0 < (transposedSize (cfg.sizer w fs) o).2 := by omega
    have hbw : 0 < (transposedSize (cfg.sizer w fs) o).1 := by omega
    have hblock := @regionSum_eq_blockFrom cfg.height cfg.width s.integral
      s.mask hInv' rx ry ((transposedSize (cfg.sizer w fs) o).2 + cfg.margin)
      ((transposedSize (cfg.sizer w fs) o).1 + cfg.margin)
      (by omega) (by omega) hxH hyW
    rw [hblock] at hz
    have h0 : s.mask r c = 0 :=
      blockFrom_zero_cell hnn hz (by omega) (by omega) (by omega) (by omega)
    omega

/-- The fresh canvas satisfies the run invariant. -/
theorem initState_good (cfg : Config) : GoodState cfg initState := by
  refine ⟨fun _ _ => Or.inl rfl, ?_, ?_, ?_, List.Pairwise.nil⟩
  · intro p hp
    cases hp
  · intro r _ c _
    exact (prefixSum_zeroGrid (r + 1) (c + 1)).symm
  · intro p hp
    cases hp

/-- A successful word placement preserves the run invariant. -/
theorem processWord_good {cfg : Config} {fp : String} {s s' : EngineState}
    {wc : String × ℚ} (hg : GoodState cfg s)
    (h : processWord cfg fp s wc = Except.ok (some s')) : GoodState cfg s' := by
  obtain ⟨fs, o, rx, ry, k', hfp, _, hs'⟩ := processWord_ok_some h
  obtain ⟨_, _, hpair⟩ := findPlacement_spec hfp
  simp only [attempt, Prod.mk.injEq] at hpair
  obtain ⟨ho, hq⟩ := hpair
  rw [← ho] at hq
  subst hs'
  exact placeAt_good hg hq.symm

/-- Every state reachable by the layout loop from a good state is good. -/
theorem layoutWords_good {cfg : Config} {fp : String} :
    ∀ {l : List (String × ℚ)} {s s' : EngineState}, GoodState cfg s →
      layoutWords cfg fp s l = Except.ok s' → GoodState cfg s'
  | [], s, s', hg, h => by
    injection h with h
    subst h
    exact hg
  | wc :: rest, s, s', hg, h => by
    unfold layoutWords at h
    cases hpw : processWord cfg fp s wc with
    | error e => rw [hpw] at h; cases h
    | ok t =>
      rw [hpw] at h
      cases t with
      | none =>
        dsimp only at h
        injection h with h
        subst h
        exact hg
      | some s1 =>
        dsimp only at h
        exact layoutWords_good (processWord_good hg hpw) h

/-- The attempt order is a permutation of the word indices. -/
theorem attemptOrder_perm (counts : List ℚ) :
    (attemptOrder counts).Perm (List.range counts.length) :=
  (List.reverse_perm _).trans (List.perm_insertionSort _ _)

/-- The attempt order has no duplicate indices. -/
theorem attemptOrder_nodup (counts : List ℚ) : (attemptOrder counts).Nodup :=
  ((attemptOrder_perm counts).nodup_iff).mpr (List.nodup_range _)

/-- An index is attempted exactly when it indexes a word. -/
theorem mem_attemptOrder {counts : List ℚ} {i : ℕ} :
    i ∈ attemptOrder counts ↔ i < counts.length := by
  rw [(attemptOrder_perm counts).mem_iff, List.mem_range]

/-- The attempt order is sorted by the reversed argsort key. -/
theorem attemptOrder_sorted (counts : List ℚ) :
    (attemptOrder counts).Pairwise (fun a b => sortKey counts b a) :=
  (List.pairwise_reverse).mpr
    (List.sorted_insertionSort (sortKey counts) (List.range counts.length))

/-- Position comparison in the attempt order: an index not dominated by `j`
under the argsort key comes strictly earlier than `j`. -/
theorem attemptOrder_position {counts : List ℚ} {i j : ℕ}
    (hi : i < counts.length) (hj : j < counts.length)
    (hkey : ¬sortKey counts i j) :
    (attemptOrder counts).indexOf i < (attemptOrder counts).indexOf j := by
  have hmi : i ∈ attemptOrder counts := mem_attemptOrder.mpr hi
  have hmj : j ∈ attemptOrder counts := mem_attemptOrder.mpr hj
  have hii := List.indexOf_lt_length.mpr hmi
  have hjj := List.indexOf_lt_length.mpr hmj
  have hne : i ≠ j := by
    intro he
    exact hkey (he ▸ Or.inr ⟨rfl, le_refl i⟩)
  by_contra hcon
  push_neg at hcon
  have hne' : (attemptOrder counts).indexOf j ≠ (attemptOrder counts).indexOf i :=
    fun he => hne ((List.indexOf_inj hmj hmi).mp he).symm
  have hlt : (attemptOrder counts).indexOf j < (attemptOrder counts).indexOf i :=
    lt_of_le_of_ne hcon hne'
  have hpw := (List.pairwise_iff_getElem.mp (attemptOrder_sorted counts))
    _ _ hjj hii hlt
  rw [List.getElem_indexOf hii, List.getElem_indexOf hjj] at hpw
  exact hkey hpw

/-- A successful word placement keeps the recorded font sizes a descending
chain, keeps the carried ceiling below every recorded size, and never raises
the ceiling. -/
theorem processWord_mono {cfg : Config} {fp : String} {s s' : EngineState}
    {wc : String × ℚ} (h : processWord cfg fp s wc = Except.ok (some s'))
    (h1 : List.Chain' (fun a b => b ≤ a)
      (s.placements.map Placement.fontSize))
    (h2 : ∀ p ∈ s.placements, s.fontSize ≤ p.fontSize) :
    List.Chain' (fun a b => b ≤ a) (s'.placements.map Placement.fontSize) ∧
      (∀ p ∈ s'.placements, s'.fontSize ≤ p.fontSize) := by
  obtain ⟨fs, o, rx, ry, k', hfp, hfs, hs'⟩ := processWord_ok_some h
  obtain ⟨hle, _, _⟩ := findPlacement_spec hfp
  have hfs0 : (if cfg.ranksOnly then s.fontSize
      else min s.fontSize (cfg.sizeFromWeight wc.2)) ≤ s.fontSize := by
    split
    · exact le_refl _
    · exact min_le_left _ _
  have hfsle : fs ≤ s.fontSize := le_trans hle hfs0
  subst hs'
  simp only [placeAt]
  constructor
  · rw [List.map_append, List.chain'_append]
    refine ⟨h1, List.chain'_singleton _, ?_⟩
    intro a ha b hb
    simp only [List.map_cons, List.map_nil, List.head?_cons,
      Option.mem_def, Option.some.injEq] at hb
    subst hb
    have ha' : a ∈ List.map Placement.fontSize s.placements :=
      List.mem_of_mem_getLast? ha
    rw [List.mem_map] at ha'
    obtain ⟨q, hq, rfl⟩ := ha'
    exact le_trans hfsle (h2 q hq)
  · intro p hp
    rcases List.mem_append.mp hp with hpo | hpn
    · exact le_trans hfsle (h2 p hpo)
    · rw [List.mem_singleton] at hpn
      subst hpn
      exact le_refl _

/-- Along any completed layout run, the recorded font sizes stay a descending
chain and the carried ceiling stays below all of them. -/
theorem layoutWords_mono {cfg : Config} {fp : String} :
    ∀ {l : List (String × ℚ)} {s s' : EngineState},
      layoutWords cfg fp s l = Except.ok s' →
      List.Chain' (fun a b => b ≤ a) (s.placements.map Placement.fontSize) →
      (∀ p ∈ s.placements, s.fontSize ≤ p.fontSize) →
      List.Chain' (fun a b => b ≤ a) (s'.placements.map Placement.fontSize)
  | [], s, s', h, h1, _ => by
    injection h with h
    subst h
    exact h1
  | wc :: rest, s, s', h, h1, h2 => by
    unfold layoutWords at h
    cases hpw : processWord cfg fp s wc with
    | error e => rw [hpw] at h; cases h
    | ok t =>
      rw [hpw] at h
      cases t with
      | none =>
        dsimp only at h
        injection h with h
        subst h
        exact h1
      | some s1 =>
        dsimp only at h
        obtain ⟨g1, g2⟩ := processWord_mono hpw h1 h2
        exact layoutWords_mono h g1 g2

/-- Decomposition of a successful `make_wordcloud` run: the placements are
those of a completed layout-loop run started on the fresh canvas. -/
theorem make_wordcloud_run {cfg : Config} {words : List String}
    {counts : List ℚ} {fp : Option String} {ps : List Placement} {d : ℕ}
    (h : make_wordcloud cfg words counts fp = Except.ok (ps, d)) :
    ∃ (l : List (String × ℚ)) (s : EngineState),
      layoutWords cfg (fp.getD FONT_PATH) initState l = Except.ok s ∧
        ps = s.placements := by
  simp only [make_wordcloud] at h
  split at h
  · cases h
  · split at h
    · cases h
    · rename_i nc hnc
      split at h
      · cases h
      · rename_i s hs
        injection h with h
        rw [Prod.mk.injEq] at h
        exact ⟨_, s, hs, h.1.symm⟩

/-- Normalization of two equal unit counts, evaluated. -/
theorem normalize_ones : normalize [1, 1] = some [1, 1] := by
  norm_num [normalize, maxQ]

/-- Normalization of a single unit count, evaluated. -/
theorem normalize_one : normalize [1] = some [1] := by
  norm_num [normalize, maxQ]

/-- Every element of a nonempty list is at most `maxQ` of the list. -/
theorem le_maxQ : ∀ {counts : List ℚ}, ∀ x ∈ counts, x ≤ maxQ counts
  | [], x, hx => absurd hx (List.not_mem_nil x)
  | [c], x, hx => by
    rw [List.mem_singleton] at hx
    subst hx
    exact le_refl _
  | c :: c' :: r, x, hx => by
    rcases List.mem_cons.mp hx with rfl | hx'
    · exact le_max_left _ _
    · exact le_trans (le_maxQ x hx') (le_max_right _ _)

/-- Numeric bound: `log 100 ≥ 4.6` (equivalently `e^4.6 ≤ 100`). -/
theorem log_hundred_ge : (4.6 : ℝ) ≤ Real.log 100 := by
  rw [Real.le_log_iff_exp_le (by norm_num : (0 : ℝ) < 100)]
  have h5 : Real.exp 4.6 ^ (5 : ℕ) = Real.exp 23 := by
    rw [← Real.exp_nat_mul]
    norm_num
  have h23 : Real.exp 23 ≤ 10 ^ 10 := by
    have he : Real.exp 23 = Real.exp 1 ^ (23 : ℕ) := by
      rw [← Real.exp_nat_mul]
      norm_num
    rw [he]
    calc Real.exp 1 ^ (23 : ℕ) ≤ (2.7182818286 : ℝ) ^ (23 : ℕ) :=
          pow_le_pow_left (Real.exp_pos 1).le Real.exp_one_lt_d9.le 23
      _ ≤ 10 ^ 10 := by norm_num
  have hp : Real.exp 4.6 ^ (5 : ℕ) ≤ (100 : ℝ) ^ (5 : ℕ) := by
    rw [h5]
    calc Real.exp 23 ≤ 10 ^ 10 := h23
      _ = (100 : ℝ) ^ (5 : ℕ) := by norm_num
  exact le_of_pow_le_pow_left (by norm_num) (by norm_num) hp

/-- Numeric bound: `log 101 < 4.62` (equivalently `101 < e^4.62`). -/
theorem log_101_lt : Real.log 101 < 4.62 := by
  rw [Real.log_lt_iff_lt_exp (by norm_num : (0 : ℝ) < 101)]
  have hsplit : Real.exp 4.62 = Real.exp 4 * Real.exp 0.62 := by
    rw [← Real.exp_add]
    norm_num
  have h4 : (2.7182818283 : ℝ) ^ (4 : ℕ) ≤ Real.exp 4 := by
    have he : Real.exp 4 = Real.exp 1 ^ (4 : ℕ) := by
      rw [← Real.exp_nat_mul]
      norm_num
    rw [he]
    exact pow_le_pow_left (by norm_num) Real.exp_one_gt_d9.le 4
  have h62 : (1 + 0.62 + 0.62 ^ 2 / 2 + 0.62 ^ 3 / 6 : ℝ) ≤ Real.exp 0.62 := by
    calc (1 + 0.62 + 0.62 ^ 2 / 2 + 0.62 ^ 3 / 6 : ℝ) =
          ∑ i ∈ Finset.range 4, (0.62 : ℝ) ^ i / (Nat.factorial i) := by
            norm_num [Finset.sum_range_succ, Nat.factorial]
      _ ≤ Real.exp 0.62 := Real.sum_le_exp_of_nonneg (by norm_num) 4
  rw [hsplit]
  calc (101 : ℝ) <
        2.7182818283 ^ (4 : ℕ) * (1 + 0.62 + 0.62 ^ 2 / 2 + 0.62 ^ 3 / 6) := by
          norm_num
    _ ≤ Real.exp 4 * Real.exp 0.62 :=
        mul_le_mul h4 h62 (by norm_num) (Real.exp_pos 4).le

/-- C1 counterexample: a concrete two-word run in which the claim's
margin-inflated rectangles, located at the recorded positions, are NOT
disjoint — both placements' inflated rectangles contain cell `(0, 2)`.  Only
the un-inflated glyph box is painted on the mask, so a later query may reuse
an earlier placement's margin ring. -/
theorem c1_inflated_overlap :
    make_wordcloud cfgA ["a", "b"] [1, 1] none =
      Except.ok ([⟨"b", 1000, (1, 1), Orient.horizontal⟩,
                  ⟨"a", 1000, (1, 3), Orient.horizontal⟩], 0) ∧
    inInflated cfgA ⟨"b", 1000, (1, 1), Orient.horizontal⟩ 0 2 ∧
    inInflated cfgA ⟨"a", 1000, (1, 3), Orient.horizontal⟩ 0 2 := by
  refine ⟨?_, by decide, by decide⟩
  simp only [make_wordcloud, normalize_ones]
  rfl

/-- C1 (amended): in every completed run of the layout engine, the placed
glyph boxes themselves (un-inflated, at their recorded positions) are pairwise
disjoint: each successful query guarantees the inflated region was entirely
unoccupied, and every earlier box is painted on the mask. -/
theorem c1_boxes_disjoint {cfg : Config} {words : List String}
    {counts : List ℚ} {fp : Option String} {ps : List Placement} {d : ℕ}
    (h : make_wordcloud cfg words counts fp = Except.ok (ps, d)) :
    ps.Pairwise (disjointBoxes cfg) := by
  obtain ⟨l, s, hl, hps⟩ := make_wordcloud_run h
  subst hps
  exact (layoutWords_good (initState_good cfg) hl).2.2.2.2

/-- C1 witness: the amended disjointness theorem applied to the concrete
two-word run of `cfgA`. -/
theorem c1_boxes_disjoint_witness :
    make_wordcloud cfgA ["a", "b"] [1, 1] none =
      Except.ok ([⟨"b", 1000, (1, 1), Orient.horizontal⟩,
                  ⟨"a", 1000, (1, 3), Orient.horizontal⟩], 0) ∧
    ([⟨"b", 1000, (1, 1), Orient.horizontal⟩,
      ⟨"a", 1000, (1, 3), Orient.horizontal⟩] : List Placement).Pairwise
        (disjointBoxes cfgA) := by
  have hrun : make_wordcloud cfgA ["a", "b"] [1, 1] none =
      Except.ok ([⟨"b", 1000, (1, 1), Orient.horizontal⟩,
                  ⟨"a", 1000, (1, 3), Orient.horizontal⟩], 0) := by
    simp only [make_wordcloud, normalize_ones]
    rfl
  exact ⟨hrun, c1_boxes_disjoint hrun⟩

/-- C2: after every successful placement's incremental integral-table update,
the integral table is again the exact 2D prefix sum of the occupancy mask:
for every cell `(r, c)` of the canvas,
`I[r][c] = sum of the mask over rows 0..r and columns 0..c`. -/
theorem c2_integral_exact {cfg : Config} {fp : String} {s s' : EngineState}
    {wc : String × ℚ} (h1 : InvI cfg s)
    (h2 : processWord cfg fp s wc = Except.ok (some s')) : InvI cfg s' := by
  obtain ⟨fs, o, rx, ry, k', hfp, hfs, hs'⟩ := processWord_ok_some h2
  subst hs'
  simp only [placeAt, InvI]
  intro r hr c hc
  exact updateIntegral_exact h1 (fun _ _ hrc => markBox_eq_of_lt hrc) r hr c hc

/-- C2 witness: the invariant holds on the fresh canvas, a concrete placement
step succeeds, and by the theorem the invariant holds after it. -/
theorem c2_integral_exact_witness :
    InvI cfgA initState ∧
    processWord cfgA FONT_PATH initState ("w", 1) = Except.ok (some s1W) ∧
    InvI cfgA s1W := by
  have hstep : processWord cfgA FONT_PATH initState ("w", 1) =
      Except.ok (some s1W) := by rfl
  exact ⟨by decide, hstep, c2_integral_exact (by decide) hstep⟩

/-- C3: canvas exhaustion truncates rather than errors: if a word's shrink
loop completes at font size 0, the whole layout loop returns normally with
the state recorded so far — the word and every remaining word are dropped. -/
theorem c3_exhaustion_truncates {cfg : Config} {fp : String} {s : EngineState}
    {wc : String × ℚ} {rest : List (String × ℚ)} {res : Option (ℕ × ℕ)}
    {o : Orient} {k' : ℕ}
    (h : findPlacement cfg fp s.integral wc.1
        (if cfg.ranksOnly then s.fontSize
         else min s.fontSize (cfg.sizeFromWeight wc.2)) s.k =
      Except.ok (res, 0, o, k')) :
    layoutWords cfg fp s (wc :: rest) = Except.ok s := by
  unfold layoutWords processWord
  rw [h]
  rfl

/-- C3 witness: a word whose box never fits exhausts the shrink loop on the
small canvas, and the layout of it plus a further word returns the untouched
state (both words dropped, no error). -/
theorem c3_exhaustion_truncates_witness :
    findPlacement cfgB FONT_PATH sSmall.integral "big"
        (if cfgB.ranksOnly then sSmall.fontSize
         else min sSmall.fontSize (cfgB.sizeFromWeight 1)) sSmall.k =
      Except.ok (none, 0, Orient.horizontal, 3) ∧
    layoutWords cfgB FONT_PATH sSmall [("big", 1), ("rest", 1)] =
      Except.ok sSmall := by
  have hloop : findPlacement cfgB FONT_PATH sSmall.integral "big"
      (if cfgB.ranksOnly then sSmall.fontSize
       else min sSmall.fontSize (cfgB.sizeFromWeight 1)) sSmall.k =
      Except.ok (none, 0, Orient.horizontal, 3) := by rfl
  exact ⟨hloop, c3_exhaustion_truncates hloop⟩

/-- C4 counterexample: two words of equal weight are attempted in REVERSE
input order — `np.argsort(counts)[::-1]` reverses a stable ascending sort, so
the later word `"w2"` is placed before the earlier `"w1"`, contrary to the
claim's stable tie-break (spec scenario C). -/
theorem c4_tie_reversed :
    make_wordcloud cfgA ["w1", "w2"] [1, 1] none =
      Except.ok ([⟨"w2", 1000, (1, 1), Orient.horizontal⟩,
                  ⟨"w1", 1000, (1, 3), Orient.horizontal⟩], 0) ∧
    attemptOrder [1, 1] = [1, 0] := by
  refine ⟨?_, by rfl⟩
  simp only [make_wordcloud, normalize_ones]
  rfl

/-- C4 (amended): words are attempted in weight-descending order, but ties
are broken by REVERSE original index: a strictly heavier word is attempted
first, and of two equal-weight words the LATER one in the input is attempted
first. -/
theorem c4_attempt_order {counts : List ℚ} {i j : ℕ}
    (hi : i < counts.length) (hj : j < counts.length) :
    (counts.getD j 0 < counts.getD i 0 →
      (attemptOrder counts).indexOf i < (attemptOrder counts).indexOf j) ∧
    (counts.getD i 0 = counts.getD j 0 → i < j →
      (attemptOrder counts).indexOf j < (attemptOrder counts).indexOf i) := by
  constructor
  · intro hlt
    apply attemptOrder_position hi hj
    intro hk
    rcases hk with hk | ⟨hk, _⟩
    · exact absurd hlt (lt_asymm hk)
    · exact absurd hk (ne_of_gt hlt)
  · intro heq hij
    apply attemptOrder_position hj hi
    intro hk
    rcases hk with hk | ⟨_, hk⟩
    · exact absurd (heq ▸ hk) (lt_irrefl _)
    · omega

/-- C4 witness: for two equal weights, the second index is attempted before
the first. -/
theorem c4_attempt_order_witness :
    0 < ([5, 5] : List ℚ).length ∧ 1 < ([5, 5] : List ℚ).length ∧
    (attemptOrder [5, 5]).indexOf 1 < (attemptOrder [5, 5]).indexOf 0 :=
  ⟨by decide, by decide,
   (c4_attempt_order (by decide) (by decide)).2 (by decide) (by decide)⟩

/-- C5: along every completed run, the recorded font sizes are non-increasing
in placement order, in both weighted and rank-only modes: the carried ceiling
only ever decreases, and each word is recorded at a size no larger than the
ceiling it started from. -/
theorem c5_font_sizes_monotone {cfg : Config} {words : List String}
    {counts : List ℚ} {fp : Option String} {ps : List Placement} {d : ℕ}
    (h : make_wordcloud cfg words counts fp = Except.ok (ps, d)) :
    List.Chain' (fun a b => b ≤ a) (ps.map Placement.fontSize) := by
  obtain ⟨l, s, hl, hps⟩ := make_wordcloud_run h
  subst hps
  exact layoutWords_mono hl List.chain'_nil
    (fun p hp => absurd hp (List.not_mem_nil p))

/-- C5 witness: the monotone-font-size theorem applied to the concrete
two-word run. -/
theorem c5_font_sizes_monotone_witness :
    make_wordcloud cfgA ["a", "b"] [1, 1] none =
      Except.ok ([⟨"b", 1000, (1, 1), Orient.horizontal⟩,
                  ⟨"a", 1000, (1, 3), Orient.horizontal⟩], 0) ∧
    List.Chain' (fun a b => b ≤ a)
      (([⟨"b", 1000, (1, 1), Orient.horizontal⟩,
         ⟨"a", 1000, (1, 3), Orient.horizontal⟩] : List Placement).map
          Placement.fontSize) := by
  have hrun : make_wordcloud cfgA ["a", "b"] [1, 1] none =
      Except.ok ([⟨"b", 1000, (1, 1), Orient.horizontal⟩,
                  ⟨"a", 1000, (1, 3), Orient.horizontal⟩], 0) := by
    simp only [make_wordcloud, normalize_ones]
    rfl
  exact ⟨hrun, c5_font_sizes_monotone hrun⟩

/-- C6 counterexample: orientation is NOT drawn once per word: on a run whose
first draw selects rotated-90 and whose second draw selects horizontal, the
word fails its first attempt, retries one size smaller, and is recorded
HORIZONTAL — the orientation of the second draw, not the single value drawn
before the first attempt (which was rotated-90). -/
theorem c6_reroll_counterexample :
    make_wordcloud cfgC ["w"] [1] none =
      Except.ok ([⟨"w", 459, (0, 0), Orient.horizontal⟩], 0) ∧
    (if cfgC.rand 0 < cfgC.preferHoriz then Orient.horizontal
     else Orient.rotate90) = Orient.rotate90 := by
  constructor
  · simp only [make_wordcloud, normalize_one]
    rfl
  · rfl

/-- C6 (amended): orientation is re-drawn from the random stream on every
shrink attempt (line 104 sits inside the `while` loop); the recorded
orientation is the draw of the FINAL attempt, i.e. the draw of index
`k + (fs - fs')` after `fs - fs'` failed attempts. -/
theorem c6_orient_from_final_attempt {cfg : Config} {fp : String}
    {I : ℕ → ℕ → ℤ} {w : String} {fs k : ℕ} {res : Option (ℕ × ℕ)}
    {fs' : ℕ} {o : Orient} {k' : ℕ}
    (h : findPlacement cfg fp I w fs k = Except.ok (res, fs', o, k')) :
    fs' ≤ fs ∧ k' = k + (fs - fs') + 1 ∧
      o = (if cfg.rand (k + (fs - fs')) < cfg.preferHoriz then
            Orient.horizontal else Orient.rotate90) := by
  obtain ⟨h1, h2, h3⟩ := findPlacement_spec h
  refine ⟨h1, h2, ?_⟩
  have hfst := congrArg Prod.fst h3
  simpa [attempt] using hfst

/-- C6 witness: the final-draw characterization applied to the concrete
shrink-then-place run of `cfgC`. -/
theorem c6_orient_from_final_attempt_witness :
    findPlacement cfgC FONT_PATH (fun _ _ => 0) "w" 460 0 =
      Except.ok (some (0, 0), 459, Orient.horizontal, 2) ∧
    (459 ≤ 460 ∧ 2 = 0 + (460 - 459) + 1 ∧
      Orient.horizontal =
        (if cfgC.rand (0 + (460 - 459)) < cfgC.preferHoriz then
          Orient.horizontal else Orient.rotate90)) := by
  have hloop : findPlacement cfgC FONT_PATH (fun _ _ => 0) "w" 460 0 =
      Except.ok (some (0, 0), 459, Orient.horizontal, 2) := by rfl
  exact ⟨hloop, c6_orient_from_final_attempt hloop⟩

/-- C7: an empty word list is fatal in the code: line 69 only prints a
warning, and `counts.max()` at line 77 then raises numpy's zero-size
reduction `ValueError` — no empty `LayoutResult` is produced. -/
theorem c7_empty_input_raises (cfg : Config) (words : List String)
    (fp : Option String) :
    make_wordcloud cfg words [] fp = Except.error emptyMaxMsg := rfl

/-- C8 counterexample: the font-not-found error does not carry the requested
font path: two runs requesting different (unavailable) font paths raise the
IDENTICAL error message, which names the basename of the module default
`FONT_PATH` instead. -/
theorem c8_error_ignores_requested_path :
    make_wordcloud cfgD ["w"] [1] (some "/custom/one.ttf") =
      Except.error fontErrMsg ∧
    make_wordcloud cfgD ["w"] [1] (some "/custom/two.ttf") =
      Except.error fontErrMsg ∧
    fontErrMsg = "Font " ++ sq ++ "LiberationSans-Regular.ttf" ++ sq ++
      " not found. Please change " ++ sq ++ "FONT_PATH" ++ sq ++
      " to a valid font file path." := by
  refine ⟨?_, ?_, by rfl⟩ <;>
    · simp only [make_wordcloud, normalize_one]
      rfl

/-- C8 (amended): a missing font is fatal — whenever the font at the resolved
path cannot be loaded and layout is reached, the engine raises an `IOError`
and never falls back to another font — but the error message is built from
the constant `FONT_PATH` (its basename), not from the path actually
requested. -/
theorem c8_font_error_names_default {cfg : Config} {words : List String}
    {counts : List ℚ} {fontPathArg : Option String}
    (h1 : counts.length ≠ 0) (h2 : maxQ counts ≠ 0)
    (h3 : cfg.fontOk (fontPathArg.getD FONT_PATH) = false) :
    make_wordcloud cfg words counts fontPathArg = Except.error fontErrMsg := by
  simp only [make_wordcloud]
  rw [if_neg h1]
  have hn : normalize counts =
      some (counts.map (fun c => c / maxQ counts)) := by
    unfold normalize
    rw [if_neg h2]
  rw [hn]
  dsimp only
  have hlen : (attemptOrder (counts.map (fun c => c / maxQ counts))).length =
      counts.length := by
    unfold attemptOrder
    rw [List.length_reverse, List.length_insertionSort, List.length_range,
      List.length_map]
  cases hc : attemptOrder (counts.map (fun c => c / maxQ counts)) with
  | nil =>
    exfalso
    rw [hc] at hlen
    exact h1 hlen.symm
  | cons i0 inds' =>
    simp only [List.map_cons, List.zip_cons_cons]
    unfold layoutWords processWord
    rw [findPlacement_fontMissing h3]

/-- C8 witness: the amended missing-font theorem applied to a concrete run
with a custom requested path. -/
theorem c8_font_error_names_default_witness :
    ([1] : List ℚ).length ≠ 0 ∧ maxQ [1] ≠ 0 ∧
    cfgD.fontOk ((some "/custom/one.ttf").getD FONT_PATH) = false ∧
    make_wordcloud cfgD ["w"] [1] (some "/custom/one.ttf") =
      Except.error fontErrMsg := by
  refine ⟨by decide, by decide, by rfl, ?_⟩
  exact c8_font_error_names_default (by decide) (by decide) (by rfl)

/-- C9 counterexample: for the all-zero (hence non-negative) weight list
`[0]`, the normalization divides by a zero maximum and produces no rational
weights at all (float NaN), so no normalized weight in `[0, 1]` is assigned. -/
theorem c9_all_zero_counterexample :
    ¬∃ l, normalize [(0 : ℚ)] = some l ∧ ∀ w ∈ l, 0 ≤ w ∧ w ≤ 1 := by
  rintro ⟨l, hl, _⟩
  have hz : normalize [(0 : ℚ)] = none := rfl
  rw [hz] at hl
  cases hl

/-- C9 (amended): for every nonempty list of non-negative weights at least
one of which is positive, normalization succeeds and every normalized weight
(each weight divided by the maximum) lies in `[0, 1]`. -/
theorem c9_normalized_in_unit {counts : List ℚ} (hne : counts ≠ [])
    (hnn : ∀ x ∈ counts, 0 ≤ x) (hpos : ∃ x ∈ counts, 0 < x) :
    ∃ l, normalize counts = some l ∧ l.length = counts.length ∧
      ∀ w ∈ l, 0 ≤ w ∧ w ≤ 1 := by
  obtain ⟨x, hx, hxpos⟩ := hpos
  have hmax : 0 < maxQ counts := lt_of_lt_of_le hxpos (le_maxQ x hx)
  refine ⟨counts.map (fun c => c / maxQ counts), ?_, by simp, ?_⟩
  · unfold normalize
    rw [if_neg (ne_of_gt hmax)]
  · intro w hw
    rw [List.mem_map] at hw
    obtain ⟨y, hy, rfl⟩ := hw
    constructor
    · exact div_nonneg (hnn y hy) hmax.le
    · exact (div_le_one hmax).mpr (le_maxQ y hy)

/-- C9 witness: the amended normalization theorem applied to the concrete
weight list `[2, 1]`. -/
theorem c9_normalized_in_unit_witness :
    ([2, 1] : List ℚ) ≠ [] ∧ (∀ x ∈ ([2, 1] : List ℚ), 0 ≤ x) ∧
    (∃ x ∈ ([2, 1] : List ℚ), 0 < x) ∧
    ∃ l, normalize [2, 1] = some l ∧ l.length = ([2, 1] : List ℚ).length ∧
      ∀ w ∈ l, 0 ≤ w ∧ w ≤ 1 :=
  ⟨by decide, by decide, by decide,
   c9_normalized_in_unit (by decide) (by decide) (by decide)⟩

/-- C10: the weighted-mode size-from-weight expression is effectively
constant on normalized weights: for every real `w` with `0 < w ≤ 1`,
`int(100 * ln(w + 100))` is either 460 or 461, so in weighted mode the
candidate size is governed almost entirely by the carried ceiling. -/
theorem c10_size_from_weight_const (w : ℝ) (h1 : 0 < w) (h2 : w ≤ 1) :
    sizeFromWeightR w = 460 ∨ sizeFromWeightR w = 461 := by
  have hlow : (460 : ℝ) ≤ 100 * Real.log (w + 100) := by
    have hmono : Real.log 100 < Real.log (w + 100) :=
      Real.log_lt_log (by norm_num) (by linarith)
    have hge := log_hundred_ge
    linarith
  have hhigh : 100 * Real.log (w + 100) < 462 := by
    have hmono : Real.log (w + 100) ≤ Real.log 101 := by
      rw [Real.log_le_log_iff (by linarith) (by norm_num)]
      linarith
    have hlt := log_101_lt
    linarith
  unfold sizeFromWeightR
  have hfl : (460 : ℤ) ≤ ⌊100 * Real.log (w + 100)⌋ := by
    apply Int.le_floor.mpr
    exact_mod_cast hlow
  have hfu : ⌊100 * Real.log (w + 100)⌋ < 462 := by
    apply Int.floor_lt.mpr
    exact_mod_cast hhigh
  omega

/-- C10 witness: the constant-size theorem applied at the normalized weight
one half. -/
theorem c10_size_from_weight_const_witness :
    (0 : ℝ) < 1 / 2 ∧ (1 / 2 : ℝ) ≤ 1 ∧
    (sizeFromWeightR (1 / 2) = 460 ∨ sizeFromWeightR (1 / 2) = 461) :=
  ⟨by norm_num, by norm_num,
   c10_size_from_weight_const _ (by norm_num) (by norm_num)⟩

end WordCloud
